import Mathlib

/-!
Verification of the CSC assembly primitives and solution finalization of the
Clarabel.rs fragment.  The Rust source is embedded shallowly: machine
integers (`usize`) become `Nat`, in-place slice updates become `List.set`,
floating-point scalars become an explicit value type `RVal` with a
distinguished NaN, and each Rust loop becomes a structural recursion that
performs the iterations in the same order as the source.
-/

namespace Clarabel

/-- Scalar model for the generic float type `T`: either NaN or a rational. -/
inductive RVal where
  | nan : RVal
  | num : ℚ → RVal
deriving DecidableEq

/-- Multiplication on the scalar model; NaN propagates as in IEEE. -/
def RVal.mul : RVal → RVal → RVal
  | RVal.num a, RVal.num b => RVal.num (a * b)
  | _, _ => RVal.nan

/-- Reciprocal `T::recip`; NaN propagates.  (recip 0, an IEEE infinity, is
modelled as `num 0⁻¹ = num 0`; no claim depends on that value.) -/
def RVal.recip : RVal → RVal
  | RVal.num a => RVal.num a⁻¹
  | RVal.nan => RVal.nan

/-- Division on the scalar model; NaN propagates. -/
def RVal.div : RVal → RVal → RVal
  | RVal.num a, RVal.num b => RVal.num (a / b)
  | _, _ => RVal.nan

/-- `MatrixShape` from the algebra crate: normal or transposed placement. -/
inductive MatrixShape where
  | N : MatrixShape
  | T : MatrixShape
deriving DecidableEq

/-- `MatrixTriangle` from the algebra crate: upper or lower triangle. -/
inductive MatrixTriangle where
  | Triu : MatrixTriangle
  | Tril : MatrixTriangle
deriving DecidableEq

/-- The CSC sparse matrix of `cscmatrix.rs`: row/column counts, column
pointer array, row indices and values. -/
structure CscMatrix where
  m : Nat
  n : Nat
  colptr : List Nat
  rowval : List Nat
  nzval : List RVal
deriving DecidableEq

/-- `l[k] += c` on a Rust slice: in-bounds this updates position `k`; the
Lean embedding is a no-op out of bounds (where the Rust source panics). -/
def addAt (l : List Nat) (k c : Nat) : List Nat :=
  l.set k (l.getD k 0 + c)

/-- `CscMatrix::spalloc(m, n, nnz)` from `cscmatrix.rs` lines 9-23: a zero
colptr of length n+1 whose last entry is then overwritten with `nnz + 1`,
a zero rowval of length nnz and a zero nzval of length nnz. -/
def CscMatrix.spalloc (m n nnz : Nat) : CscMatrix :=
  let colptr := (List.replicate (n + 1) 0).set n (nnz + 1)
  let rowval := List.replicate nnz 0
  let nzval := List.replicate nnz (RVal.num 0)
  { m := m, n := n, colptr := colptr, rowval := rowval, nzval := nzval }

/-- The loop of `colcount_dense_triangle`: for `j = 0..blockcols`,
`colptr[initcol + j] += cnt j`.  The Triu branch zips counts `1..=blockcols`
and the Tril branch the reversed counts. -/
def colcountDenseAux (initcol : Nat) (cnt : Nat → Nat) : Nat → List Nat → List Nat
  | 0, c => c
  | j + 1, c => addAt (colcountDenseAux initcol cnt j c) (initcol + j) (cnt j)

/-- `CscMatrix::colcount_dense_triangle` from `cscmatrix.rs` lines 27-39. -/
def CscMatrix.colcount_dense_triangle (A : CscMatrix) (initcol blockcols : Nat)
    (shape : MatrixTriangle) : CscMatrix :=
  match shape with
  | MatrixTriangle.Triu =>
      { A with colptr := colcountDenseAux initcol (fun j => j + 1) blockcols A.colptr }
  | MatrixTriangle.Tril =>
      { A with colptr := colcountDenseAux initcol (fun j => blockcols - j) blockcols A.colptr }

/-- The N-branch loop of `colcount_block` (`cscmatrix.rs` lines 93-98):
for `i = 0..Mn`, `self.colptr[initcol + i] += self.colptr[i+1] - self.colptr[i]`.
Note the source reads the counts from `self.colptr`, not from `M.colptr`;
only `M.n` is consulted.  The recursion applies iteration `i` to the state
left by iterations `0..i`, as the sequential Rust loop does. -/
def colcountBlockNAux (initcol : Nat) : Nat → List Nat → List Nat
  | 0, c => c
  | i + 1, c =>
      let c' := colcountBlockNAux initcol i c
      addAt c' (initcol + i) (c'.getD (i + 1) 0 - c'.getD i 0)

/-- `CscMatrix::colcount_block` from `cscmatrix.rs` lines 86-100.  The T
branch does `self.colptr[row + (initcol - 1)] += 1` for every stored row
index of `M` (Nat subtraction stands for the usize subtraction, which the
Rust source would overflow on when `initcol = 0`). -/
def CscMatrix.colcount_block (A : CscMatrix) (M : CscMatrix) (initcol : Nat)
    (shape : MatrixShape) : CscMatrix :=
  match shape with
  | MatrixShape.T =>
      { A with colptr := M.rowval.foldl (fun c row => addAt c (row + (initcol - 1)) 1) A.colptr }
  | MatrixShape.N =>
      { A with colptr := colcountBlockNAux initcol M.n A.colptr }

/-- Modelled from the spec: the table row "`colcount_block(M, init, N)`:
destination column `init+i` gains `nnz(col i of M)`", with the count of
column `i` of `M` read from `M.colptr` as §9 requires ("specification
requires `M.colptr` to be read").  This is the spec-side reference point
against which the source's self-reading N branch is compared. -/
def colcountBlockNSpec (dest : List Nat) (Mcolptr : List Nat) (Mn initcol : Nat) : List Nat :=
  match Mn with
  | 0 => dest
  | i + 1 =>
      addAt (colcountBlockNSpec dest Mcolptr i initcol) (initcol + i)
        (Mcolptr.getD (i + 1) 0 - Mcolptr.getD i 0)

/-- The column test of `colcount_missing_diag` and `fill_missing_diag`
(`cscmatrix.rs` lines 56-58 and 254-255): column `i` of `M` is completely
empty, or its last stored row index is not on the diagonal. -/
def missingDiagB (M : CscMatrix) (i : Nat) : Bool :=
  (M.colptr.getD i 0 == M.colptr.getD (i + 1) 0) ||
    (M.rowval.getD (M.colptr.getD (i + 1) 0 - 1) 0 != i)

/-- The column test of `count_diagonal_entries` (`cscmatrix.rs` lines
288-289): column `i` is nonempty and its last stored row index equals `i`. -/
def diagB (M : CscMatrix) (i : Nat) : Bool :=
  (M.colptr.getD (i + 1) 0 != M.colptr.getD i 0) &&
    (M.rowval.getD (M.colptr.getD (i + 1) 0 - 1) 0 == i)

/-- The loop of `colcount_missing_diag`: for `i = 0..Mn`, if column `i` of
`M` misses its diagonal then `self.colptr[i + initcol] += 1`. -/
def colcountMissingDiagAux (M : CscMatrix) (initcol : Nat) : Nat → List Nat → List Nat
  | 0, c => c
  | i + 1, c =>
      let c' := colcountMissingDiagAux M initcol i c
      if missingDiagB M i then addAt c' (i + initcol) 1 else c'

/-- `CscMatrix::colcount_missing_diag` from `cscmatrix.rs` lines 51-63 (the
two asserts become hypotheses of the theorems below). -/
def CscMatrix.colcount_missing_diag (A : CscMatrix) (M : CscMatrix) (initcol : Nat) :
    CscMatrix :=
  { A with colptr := colcountMissingDiagAux M initcol M.n A.colptr }

/-- The loop of `count_diagonal_entries`: count the columns `i < Mn` whose
last stored entry is on the diagonal. -/
def countDiagAux (M : CscMatrix) : Nat → Nat
  | 0 => 0
  | i + 1 => countDiagAux M i + (if diagB M i then 1 else 0)

/-- `CscMatrix::count_diagonal_entries` from `cscmatrix.rs` lines 281-295. -/
def CscMatrix.count_diagonal_entries (M : CscMatrix) : Nat :=
  countDiagAux M M.n

/-- The loop of `fill_missing_diag` (`cscmatrix.rs` lines 252-263): when
column `i` of `M` misses its diagonal, read `dest = self.colptr[i + initcol]`,
write `rowval[dest] = i + initcol` and `nzval[dest] = 0`, then increment
`self.colptr[i]` (the source increments index `i`, not `i + initcol`). -/
def fillMissingDiagAux (M : CscMatrix) (initcol : Nat) : Nat → CscMatrix → CscMatrix
  | 0, A => A
  | i + 1, A =>
      let A' := fillMissingDiagAux M initcol i A
      if missingDiagB M i then
        let dest := A'.colptr.getD (i + initcol) 0
        { A' with
          rowval := A'.rowval.set dest (i + initcol)
          nzval := A'.nzval.set dest (RVal.num 0)
          colptr := addAt A'.colptr i 1 }
      else A'

/-- `CscMatrix::fill_missing_diag` from `cscmatrix.rs` lines 251-264. -/
def CscMatrix.fill_missing_diag (A : CscMatrix) (M : CscMatrix) (initcol : Nat) : CscMatrix :=
  fillMissingDiagAux M initcol M.n A

/-- The loop of `colcount_to_colptr` (`cscmatrix.rs` lines 266-273): walk
the list with a running pointer, replacing each count with the pointer and
advancing the pointer by the count. -/
def colcountToColptrGo : Nat → List Nat → List Nat
  | _, [] => []
  | cur, p :: rest => cur :: colcountToColptrGo (cur + p) rest

/-- `CscMatrix::colcount_to_colptr` from `cscmatrix.rs` lines 266-273. -/
def CscMatrix.colcount_to_colptr (A : CscMatrix) : CscMatrix :=
  { A with colptr := colcountToColptrGo 0 A.colptr }

/-- `CscMatrix::backshift_colptrs` from `cscmatrix.rs` lines 275-278:
rotate the colptr right by one and zero the first entry. -/
def CscMatrix.backshift_colptrs (A : CscMatrix) : CscMatrix :=
  { A with colptr := (A.colptr.rotateRight 1).set 0 0 }

/-- State threaded through the `fill_dense_triangle` loops: the matrix
being filled, the caller-supplied reverse map and the running index into
it.  A ghost trace of the `(col, row)` coordinates of each entry written is
carried alongside so that the write pattern can be reasoned about. -/
structure FillState where
  K : CscMatrix
  blocktoKKT : List Nat
  kidx : Nat
deriving DecidableEq

/-- One iteration of the `_fill_dense_triangle_triu` inner loop
(`cscmatrix.rs` lines 206-211): read the cursor `dest = colptr[col]`, write
`rowval[dest] = row` and a structural zero into `nzval[dest]`, advance the
cursor, record `dest` in the reverse map and advance `kidx`. -/
def fillTriuStep (s : FillState × List (Nat × Nat)) (col row : Nat) :
    FillState × List (Nat × Nat) :=
  let st := s.1
  let dest := st.K.colptr.getD col 0
  ({ K := { st.K with
        rowval := st.K.rowval.set dest row
        nzval := st.K.nzval.set dest (RVal.num 0)
        colptr := addAt st.K.colptr col 1 }
     blocktoKKT := st.blocktoKKT.set st.kidx dest
     kidx := st.kidx + 1 },
   s.2 ++ [(col, row)])

/-- The inner loop `for row in offset..col` of `_fill_dense_triangle_triu`,
unrolled as `nrows` iterations writing rows `offset, offset+1, …`. -/
def fillColRows (col offset : Nat) : Nat → FillState × List (Nat × Nat) →
    FillState × List (Nat × Nat)
  | 0, s => s
  | r + 1, s => fillTriuStep (fillColRows col offset r s) col (offset + r)

/-- The outer loop `for col in offset..(offset + blockdim)` of
`_fill_dense_triangle_triu`; column `offset + j` runs `j` inner iterations. -/
def fillCols (offset : Nat) : Nat → FillState × List (Nat × Nat) →
    FillState × List (Nat × Nat)
  | 0, s => s
  | j + 1, s => fillColRows (offset + j) offset j (fillCols offset j s)

/-- `CscMatrix::_fill_dense_triangle_triu` from `cscmatrix.rs` lines
197-214, started with an empty write trace. -/
def fillDenseTriangleTriu (st : FillState) (offset blockdim : Nat) :
    FillState × List (Nat × Nat) :=
  fillCols offset blockdim (st, [])

/-- `CscMatrix::fill_dense_triangle` from `cscmatrix.rs` lines 175-195:
both the Triu and the Tril arm call `_fill_dense_triangle_triu`. -/
def fill_dense_triangle (st : FillState) (offset blockdim : Nat)
    (shape : MatrixTriangle) : FillState × List (Nat × Nat) :=
  match shape with
  | MatrixTriangle.Triu => fillDenseTriangleTriu st offset blockdim
  | MatrixTriangle.Tril => fillDenseTriangleTriu st offset blockdim

/-- `SolverStatus` of the solver core, with the variants listed in
`impl_default_py.rs` lines 110-125. -/
inductive SolverStatus where
  | Unsolved | Solved | PrimalInfeasible | DualInfeasible
  | AlmostSolved | AlmostPrimalInfeasible | AlmostDualInfeasible
  | MaxIterations | MaxTime | ScalingError | NumericalError
  | InsufficientProgress
deriving DecidableEq

/-- Modelled from the spec: `SolverStatus::is_infeasible` is defined in the
solver core, outside the staged sources.  Per §7, `PrimalInfeasible` and
`DualInfeasible` are the two infeasibility-certificate statuses. -/
def SolverStatus.is_infeasible : SolverStatus → Bool
  | SolverStatus.PrimalInfeasible => true
  | SolverStatus.DualInfeasible => true
  | _ => false

/-- `DefaultSolution` from `solution.rs` lines 11-29. -/
structure DefaultSolution where
  x : List RVal
  z : List RVal
  s : List RVal
  status : SolverStatus
  obj_val : RVal
  obj_val_dual : RVal
  solve_time : ℚ
  timings : List (String × ℚ)
  iterations : Nat
  r_prim : RVal
  r_dual : RVal
  xhist : List (List RVal)
  zhist : List (List RVal)
  shist : List (List RVal)
deriving DecidableEq

/-- `DefaultSolution::new(m, n)` from `solution.rs` lines 35-56: `x` gets
length `n` (the second argument), `z` and `s` length `m` (the first). -/
def DefaultSolution.new (m n : Nat) : DefaultSolution :=
  { x := List.replicate n (RVal.num 0)
    z := List.replicate m (RVal.num 0)
    s := List.replicate m (RVal.num 0)
    status := SolverStatus.Unsolved
    obj_val := RVal.nan
    obj_val_dual := RVal.nan
    solve_time := 0
    timings := []
    iterations := 0
    r_prim := RVal.nan
    r_dual := RVal.nan
    xhist := []
    zhist := []
    shist := [] }

/-- `DefaultInfo` fields read by `finalize` (the type itself lives outside
the staged sources; the fields and their uses are those of `solution.rs`
lines 86-144). -/
structure DefaultInfo where
  status : SolverStatus
  cost_primal : RVal
  cost_dual : RVal
  iterations : Nat
  solve_time : ℚ
  timings : List (String × ℚ)
  res_primal : RVal
  res_dual : RVal
deriving DecidableEq

/-- `DefaultVariables`: the homogeneous-embedding iterate (x, z, s, τ, κ)
of spec §3 (the type lives outside the staged sources). -/
structure DefaultVariables where
  x : List RVal
  z : List RVal
  s : List RVal
  τ : RVal
  κ : RVal
deriving DecidableEq

/-- Modelled from the spec: `DefaultVariables::new(n, m)` (outside the
staged sources) allocates `x` of length `n` and `z`, `s` of length `m`;
§4.4 initializes τ = κ = 1. -/
def DefaultVariables.new (n m : Nat) : DefaultVariables :=
  { x := List.replicate n (RVal.num 0)
    z := List.replicate m (RVal.num 0)
    s := List.replicate m (RVal.num 0)
    τ := RVal.num 1
    κ := RVal.num 1 }

/-- Equilibration data of spec §2: diagonal scalings d, e, einv and the
scalar c. -/
structure Equilibration where
  d : List RVal
  e : List RVal
  einv : List RVal
  c : RVal
deriving DecidableEq

/-- The presolve reduction map read by `finalize`: kept row indices and the
keep/eliminate flags. -/
structure ReduceMap where
  keep_index : List Nat
  keep_logical : List Bool
deriving DecidableEq

/-- The presolver fields read by `finalize`. -/
structure Presolver where
  reduce_map : Option ReduceMap
  infbound : ℚ
deriving DecidableEq

/-- The `DefaultProblemData` fields read by `finalize`. -/
structure DefaultProblemData where
  equilibration : Equilibration
  presolver : Presolver
deriving DecidableEq

/-- Modelled from the spec: `VectorMath::hadamard` (algebra crate, outside
the staged sources) — elementwise product in place. -/
def hadamard (x d : List RVal) : List RVal :=
  x.zipWith RVal.mul d

/-- Modelled from the spec: `VectorMath::scale` (algebra crate, outside the
staged sources) — multiply every entry by a scalar. -/
def scaleBy (x : List RVal) (c : RVal) : List RVal :=
  x.map (fun v => v.mul c)

/-- The five-way `izip!` of `solution.rs` line 113, stopping at the
shortest input as the Rust iterator does. -/
def izip5 : List RVal → List RVal → List RVal → List RVal → List Nat →
    List (RVal × RVal × RVal × RVal × Nat)
  | a :: as_, b :: bs, c :: cs, d :: ds, e :: es =>
      (a, b, c, d, e) :: izip5 as_ bs cs ds es
  | _, _, _, _, _ => []

/-- `DefaultSolution::finalize` from `solution.rs` lines 80-145: copy the
status and objectives from Info, pick the normalization 1/κ (infeasible)
or 1/τ (otherwise), NaN the objectives in the infeasible case, undo the
equilibration on x, z, s (through the presolve reduction map when one is
present), and copy the iteration statistics. -/
def DefaultSolution.finalize (sol : DefaultSolution) (data : DefaultProblemData)
    (vars : DefaultVariables) (info : DefaultInfo) : DefaultSolution :=
  let infeas := info.status.is_infeasible
  let scaleinv := if infeas then RVal.recip vars.κ else RVal.recip vars.τ
  let obj_val := if infeas then RVal.nan else info.cost_primal
  let obj_val_dual := if infeas then RVal.nan else info.cost_dual
  let d := data.equilibration.d
  let e := data.equilibration.e
  let einv := data.equilibration.einv
  let cscale := data.equilibration.c
  let x := scaleBy (hadamard vars.x d) scaleinv
  let (z, s) :=
    match data.presolver.reduce_map with
    | some mp =>
        let zs := (izip5 vars.z vars.s e einv mp.keep_index).foldl
          (fun (zs : List RVal × List RVal) q =>
            match q with
            | (zi, si, ei, einvi, mapi) =>
                (zs.1.set mapi ((zi.mul ei).mul (scaleinv.div cscale)),
                 zs.2.set mapi ((si.mul einvi).mul scaleinv)))
          (sol.z, sol.s)
        let zfixed := (zs.1.zip mp.keep_logical).map
          (fun p => if p.2 then p.1 else RVal.num 0)
        let sfixed := (zs.2.zip mp.keep_logical).map
          (fun p => if p.2 then p.1 else RVal.num data.presolver.infbound)
        (zfixed, sfixed)
    | none =>
        (scaleBy (hadamard vars.z e) (scaleinv.div cscale),
         scaleBy (hadamard vars.s einv) scaleinv)
  { sol with
    status := info.status
    obj_val := obj_val
    obj_val_dual := obj_val_dual
    x := x
    z := z
    s := s
    iterations := info.iterations
    solve_time := info.solve_time
    timings := info.timings
    r_prim := info.res_primal
    r_dual := info.res_dual }

/-- `PySolverStatus` from `impl_default_py.rs` lines 110-125. -/
inductive PySolverStatus where
  | Unsolved | Solved | PrimalInfeasible | DualInfeasible
  | AlmostSolved | AlmostPrimalInfeasible | AlmostDualInfeasible
  | MaxIterations | MaxTime | ScalingError | NumericalError
  | InsufficientProgress
deriving DecidableEq

/-- `PySolverStatus::new_from_internal` from `impl_default_py.rs` lines
128-144: the variant-by-variant copy of the core status. -/
def PySolverStatus.new_from_internal : SolverStatus → PySolverStatus
  | SolverStatus.Unsolved => PySolverStatus.Unsolved
  | SolverStatus.Solved => PySolverStatus.Solved
  | SolverStatus.PrimalInfeasible => PySolverStatus.PrimalInfeasible
  | SolverStatus.DualInfeasible => PySolverStatus.DualInfeasible
  | SolverStatus.AlmostSolved => PySolverStatus.AlmostSolved
  | SolverStatus.AlmostPrimalInfeasible => PySolverStatus.AlmostPrimalInfeasible
  | SolverStatus.AlmostDualInfeasible => PySolverStatus.AlmostDualInfeasible
  | SolverStatus.MaxIterations => PySolverStatus.MaxIterations
  | SolverStatus.MaxTime => PySolverStatus.MaxTime
  | SolverStatus.ScalingError => PySolverStatus.ScalingError
  | SolverStatus.NumericalError => PySolverStatus.NumericalError
  | SolverStatus.InsufficientProgress => PySolverStatus.InsufficientProgress

/-- `PyDefaultSolution` from `impl_default_py.rs` lines 42-72. -/
structure PyDefaultSolution where
  x : List RVal
  s : List RVal
  z : List RVal
  status : PySolverStatus
  obj_val : RVal
  obj_val_dual : RVal
  solve_time : ℚ
  timings : List (String × ℚ)
  iterations : Nat
  r_prim : RVal
  r_dual : RVal
  xhist : List (List RVal)
  shist : List (List RVal)
  zhist : List (List RVal)
deriving DecidableEq

/-- `PyDefaultSolution::new_from_internal` from `impl_default_py.rs` lines
75-96: clone every field of the internal solution. -/
def PyDefaultSolution.new_from_internal (result : DefaultSolution) : PyDefaultSolution :=
  { x := result.x
    s := result.s
    z := result.z
    status := PySolverStatus.new_from_internal result.status
    obj_val := result.obj_val
    obj_val_dual := result.obj_val_dual
    solve_time := result.solve_time
    timings := result.timings
    iterations := result.iterations
    r_prim := result.r_prim
    r_dual := result.r_dual
    xhist := result.xhist
    zhist := result.zhist
    shist := result.shist }

/-- Modelled from the spec: the inner `DefaultSolver` (outside the staged
sources) as the Python wrapper sees it — only its `solution` field is read
by the wrapper methods under study. -/
structure DefaultSolver where
  solution : DefaultSolution

/-- The warm-start guess built by `PyDefaultSolver::solve_warm`
(`impl_default_py.rs` lines 476-483): `DefaultVariables::new(xguess.len(),
sguess.len())` followed by `copy_from` of each guess (`copy_from` replaces
the contents; the Rust call requires matching lengths). -/
def mkWarmGuess (xg sg zg : List RVal) : DefaultVariables :=
  let guess := DefaultVariables.new xg.length sg.length
  { guess with x := xg, s := sg, z := zg }

/-- `PyDefaultSolver::solve_warm` from `impl_default_py.rs` lines 471-492,
parametric in the inner solver's cold and warm entry points (both outside
the staged sources): when all three guesses are present, build the guess
and call the inner warm solve; otherwise call the inner cold solve: in
both cases return the updated solver and
`PyDefaultSolution::new_from_internal` of its solution. -/
def pySolveWarm (innerSolve : DefaultSolver → DefaultSolver)
    (innerSolveWarm : DefaultSolver → Option DefaultVariables → Option Int → Option ℚ →
      DefaultSolver)
    (slf : DefaultSolver) (xguess sguess zguess : Option (List RVal))
    (mode : Option Int) (lambda : Option ℚ) : DefaultSolver × PyDefaultSolution :=
  match xguess, sguess, zguess with
  | some xg, some sg, some zg =>
      let guess := mkWarmGuess xg sg zg
      let inner := innerSolveWarm slf (some guess) mode lambda
      (inner, PyDefaultSolution.new_from_internal inner.solution)
  | _, _, _ =>
      let inner := innerSolve slf
      (inner, PyDefaultSolution.new_from_internal inner.solution)

/-- The set of destination columns that `colcount_missing_diag(M, initcol)`
increments: the positions of the destination colptr whose value changed. -/
def incrementedColumns (A M : CscMatrix) (initcol : Nat) : Finset Nat :=
  (Finset.range A.colptr.length).filter
    (fun j => (A.colcount_missing_diag M initcol).colptr.getD j 0 ≠ A.colptr.getD j 0)

/-! Helper lemmas about the in-place increment `addAt`. -/

theorem addAt_length (l : List Nat) (k c : Nat) : (addAt l k c).length = l.length := by
  simp [addAt]

theorem getD_addAt_self {l : List Nat} {k : Nat} (h : k < l.length) (c : Nat) :
    (addAt l k c).getD k 0 = l.getD k 0 + c := by
  simp [addAt, List.getD_eq_getElem?_getD, List.getElem?_set_eq_of_lt _ h]

theorem getD_addAt_ne (l : List Nat) {k j : Nat} (hne : k ≠ j) (c : Nat) :
    (addAt l k c).getD j 0 = l.getD j 0 := by
  simp [addAt, List.getD_eq_getElem?_getD, List.getElem?_set_ne hne]

/-- Claim C2 counterexample: `DefaultSolution::new(2, 3)` returns an `x` of
length 3, the second argument, not 2, the first: the first argument is the
dual dimension m, not the primal dimension n. -/
theorem DefaultSolution_new_first_arg_not_x_length :
    (DefaultSolution.new 2 3).x.length = 3 ∧ (3 : Nat) ≠ 2 :=
  ⟨rfl, by decide⟩

/-- Claim C2 (amended): `DefaultSolution::new` takes the dual dimension m
first and the primal dimension n second: the returned `x` has the length of
the second argument, and `z` and `s` the length of the first. -/
theorem DefaultSolution_new_lengths (m n : Nat) :
    (DefaultSolution.new m n).x.length = n ∧
    (DefaultSolution.new m n).z.length = m ∧
    (DefaultSolution.new m n).s.length = m := by
  simp [DefaultSolution.new]

/-- Claim C4 counterexample: `spalloc(1, 1, 2)` returns colptr `[0, 3]`,
not the zeroed sequence `[0, 0]`: the last entry is set to `nnz + 1`. -/
theorem spalloc_colptr_not_zeroed :
    (CscMatrix.spalloc 1 1 2).colptr = [0, 3] ∧
    ([0, 3] : List Nat) ≠ List.replicate 2 0 :=
  ⟨rfl, by decide⟩

/-- Claim C4 (amended): `spalloc(m, n, nnz)` returns a colptr of length
n+1 whose entries below n are zero and whose last entry is `nnz + 1`, a
rowval of length nnz, and an nzval of length nnz with every entry zero. -/
theorem spalloc_shape (m n nnz : Nat) :
    (CscMatrix.spalloc m n nnz).colptr.length = n + 1 ∧
    (∀ i, i < n → (CscMatrix.spalloc m n nnz).colptr.getD i 0 = 0) ∧
    (CscMatrix.spalloc m n nnz).colptr.getD n 0 = nnz + 1 ∧
    (CscMatrix.spalloc m n nnz).rowval.length = nnz ∧
    (CscMatrix.spalloc m n nnz).nzval.length = nnz ∧
    ∀ v ∈ (CscMatrix.spalloc m n nnz).nzval, v = RVal.num 0 := by
  refine ⟨by simp [CscMatrix.spalloc], ?_, ?_, by simp [CscMatrix.spalloc],
    by simp [CscMatrix.spalloc], ?_⟩
  · intro i hi
    have hne : n ≠ i := (Nat.ne_of_lt hi).symm
    simp [CscMatrix.spalloc, List.getD_eq_getElem?_getD, List.getElem?_set_ne hne,
      List.getElem?_replicate, Nat.lt_succ_of_lt hi]
  · have h : n < (List.replicate (n + 1) (0 : Nat)).length := by simp
    simp [CscMatrix.spalloc, List.getD_eq_getElem?_getD, List.getElem?_set_eq_of_lt _ h]
  · intro v hv
    simp only [CscMatrix.spalloc] at hv
    exact List.eq_of_mem_replicate hv

/-- Claim C1: the N branch of `colcount_block` reads the nonzero counts
from `self.colptr`, not from `M.colptr`.  At this input M has one stored
nonzero in its only column and the destination counts are all zero, so the
code leaves the destination unchanged while the claimed (and spec-mandated)
behavior would increment destination column `initcol + 0` by one. -/
theorem colcount_block_N_reads_self_not_M :
    (CscMatrix.colcount_block ⟨2, 2, [0, 0, 0], [], []⟩
      ⟨1, 1, [0, 1], [0], [RVal.num 1]⟩ 1 MatrixShape.N).colptr = [0, 0, 0] ∧
    colcountBlockNSpec [0, 0, 0] [0, 1] 1 1 = [0, 1, 0] ∧
    ([0, 0, 0] : List Nat) ≠ [0, 1, 0] :=
  ⟨rfl, rfl, by decide⟩

/-- Claim C5: the T branch of `colcount_block` increments destination
column `row + initcol - 1`, not `row + initcol`.  At this input M stores
one entry with row index 0 and `initcol = 1`, so the code increments
destination column 0 while the claim says column 1. -/
theorem colcount_block_T_off_by_one :
    (CscMatrix.colcount_block ⟨2, 2, [0, 0], [], []⟩
      ⟨1, 1, [0, 1], [0], [RVal.num 1]⟩ 1 MatrixShape.T).colptr = [1, 0] ∧
    ([1, 0] : List Nat) ≠ [0, 1] :=
  ⟨rfl, by decide⟩

/-- Claim C6: `fill_missing_diag` reads the write offset from the
destination column's cursor `colptr[i + initcol]` but then increments
`colptr[i]` instead of that same cursor.  At this input (`initcol = 1`,
M a 1×1 matrix with an empty column) the code leaves `colptr[1]` at 1 and
increments `colptr[0]`, while the claim says `colptr[1]` is incremented. -/
theorem fill_missing_diag_increments_wrong_cursor :
    (CscMatrix.fill_missing_diag ⟨2, 2, [0, 1, 2], [0, 0], [RVal.num 0, RVal.num 0]⟩
      ⟨1, 1, [0, 0], [], []⟩ 1).colptr = [1, 1, 2] ∧
    ([1, 1, 2] : List Nat) ≠ [0, 2, 2] :=
  ⟨rfl, by decide⟩

theorem colcountToColptrGo_length (cur : Nat) (l : List Nat) :
    (colcountToColptrGo cur l).length = l.length := by
  induction l generalizing cur with
  | nil => rfl
  | cons p rest ih => simp [colcountToColptrGo, ih]

theorem getD_colcountToColptrGo (l : List Nat) (cur i : Nat) (h : i < l.length) :
    (colcountToColptrGo cur l).getD i 0 = cur + (l.take i).sum := by
  induction l generalizing cur i with
  | nil => simp at h
  | cons p rest ih =>
    cases i with
    | zero => simp [colcountToColptrGo]
    | succ j =>
      have hj : j < rest.length := by simpa using h
      simp only [colcountToColptrGo, List.getD_cons_succ, List.take_succ_cons, List.sum_cons]
      rw [ih (cur + p) j hj]
      omega

theorem sum_take_set (l : List Nat) (i v : Nat) :
    ((l.set i v).take i).sum = (l.take i).sum := by
  induction l generalizing i with
  | nil => simp
  | cons p rest ih =>
    cases i with
    | zero => simp
    | succ j => simp [List.set_cons_succ, ih]

/-- Claim C7: `colcount_to_colptr` performs an in-place exclusive prefix
scan.  The colptr keeps its length, every entry i becomes the sum of the
counts previously stored at positions 0..i (so entry 0 becomes 0 and the
last entry becomes the total of all earlier counts), and the result is
unchanged if the value previously stored at the last position is replaced
by anything else. -/
theorem colcount_to_colptr_prefix_scan (A : CscMatrix) :
    (A.colcount_to_colptr).colptr.length = A.colptr.length ∧
    (∀ i, i < A.colptr.length →
      (A.colcount_to_colptr).colptr.getD i 0 = (A.colptr.take i).sum) ∧
    (∀ v i, i + 1 = A.colptr.length →
      ({ A with colptr := A.colptr.set i v } : CscMatrix).colcount_to_colptr.colptr.getD i 0 =
        (A.colcount_to_colptr).colptr.getD i 0) := by
  refine ⟨colcountToColptrGo_length 0 A.colptr, ?_, ?_⟩
  · intro i hi
    simpa using getD_colcountToColptrGo A.colptr 0 i hi
  · intro v i hi
    have h1 : i < (A.colptr.set i v).length := by simp; omega
    have h2 : i < A.colptr.length := by omega
    simp only [CscMatrix.colcount_to_colptr]
    rw [getD_colcountToColptrGo _ 0 i h1, getD_colcountToColptrGo _ 0 i h2, sum_take_set]

/-- Claim C3: when `finalize` is given an Info whose status is infeasible
(exactly `PrimalInfeasible` or `DualInfeasible`), it sets both objective
values to NaN and normalizes x, z, s by 1/κ; for every non-infeasible
status it copies the objective values from Info and normalizes by 1/τ.
Stated on the presolve-free path (`reduce_map = none`); the equilibration
factors d, e, einv, c are applied in both cases as in the source. -/
theorem finalize_objectives_and_normalization (sol : DefaultSolution)
    (data : DefaultProblemData) (vars : DefaultVariables) (info : DefaultInfo)
    (hmap : data.presolver.reduce_map = none) :
    (∀ st : SolverStatus, st.is_infeasible = true ↔
      (st = SolverStatus.PrimalInfeasible ∨ st = SolverStatus.DualInfeasible)) ∧
    (info.status.is_infeasible = true →
      (sol.finalize data vars info).obj_val = RVal.nan ∧
      (sol.finalize data vars info).obj_val_dual = RVal.nan ∧
      (sol.finalize data vars info).x =
        scaleBy (hadamard vars.x data.equilibration.d) (RVal.recip vars.κ) ∧
      (sol.finalize data vars info).z =
        scaleBy (hadamard vars.z data.equilibration.e)
          ((RVal.recip vars.κ).div data.equilibration.c) ∧
      (sol.finalize data vars info).s =
        scaleBy (hadamard vars.s data.equilibration.einv) (RVal.recip vars.κ)) ∧
    (info.status.is_infeasible = false →
      (sol.finalize data vars info).obj_val = info.cost_primal ∧
      (sol.finalize data vars info).obj_val_dual = info.cost_dual ∧
      (sol.finalize data vars info).x =
        scaleBy (hadamard vars.x data.equilibration.d) (RVal.recip vars.τ) ∧
      (sol.finalize data vars info).z =
        scaleBy (hadamard vars.z data.equilibration.e)
          ((RVal.recip vars.τ).div data.equilibration.c) ∧
      (sol.finalize data vars info).s =
        scaleBy (hadamard vars.s data.equilibration.einv) (RVal.recip vars.τ)) := by
  refine ⟨?_, ?_, ?_⟩
  · intro st
    cases st <;> simp [SolverStatus.is_infeasible]
  · intro h
    simp [DefaultSolution.finalize, hmap, h]
  · intro h
    simp [DefaultSolution.finalize, hmap, h]

/-- Witness for C3: a concrete infeasible finalize call, with the theorem's
hypothesis discharged at `reduce_map = none`. -/
theorem finalize_objectives_and_normalization_witness :
    ((DefaultSolution.new 1 1).finalize
        ⟨⟨[RVal.num 1], [RVal.num 1], [RVal.num 1], RVal.num 1⟩, ⟨none, 0⟩⟩
        ⟨[RVal.num 2], [RVal.num 3], [RVal.num 4], RVal.num 1, RVal.num 2⟩
        ⟨SolverStatus.PrimalInfeasible, RVal.num 5, RVal.num 6, 7, 0, [],
          RVal.num 0, RVal.num 0⟩).obj_val = RVal.nan :=
  ((finalize_objectives_and_normalization (DefaultSolution.new 1 1)
      ⟨⟨[RVal.num 1], [RVal.num 1], [RVal.num 1], RVal.num 1⟩, ⟨none, 0⟩⟩
      ⟨[RVal.num 2], [RVal.num 3], [RVal.num 4], RVal.num 1, RVal.num 2⟩
      ⟨SolverStatus.PrimalInfeasible, RVal.num 5, RVal.num 6, 7, 0, [],
        RVal.num 0, RVal.num 0⟩ rfl).2.1 rfl).1

/-- Claim C8: `PyDefaultSolver::solve_warm` performs a warm start exactly
when all three of the x, s and z guesses are supplied, building the guess
from them and calling the inner warm-start entry point; if any guess is
absent it calls the inner cold-start solve; in either case it returns the
solver's solution through `PyDefaultSolution::new_from_internal`. -/
theorem pySolveWarm_dispatch (fs : DefaultSolver → DefaultSolver)
    (fw : DefaultSolver → Option DefaultVariables → Option Int → Option ℚ → DefaultSolver)
    (slf : DefaultSolver) (mode : Option Int) (lambda : Option ℚ) :
    (∀ xg sg zg : List RVal,
      pySolveWarm fs fw slf (some xg) (some sg) (some zg) mode lambda =
        (fw slf (some (mkWarmGuess xg sg zg)) mode lambda,
         PyDefaultSolution.new_from_internal
           (fw slf (some (mkWarmGuess xg sg zg)) mode lambda).solution)) ∧
    (∀ xg sg zg : Option (List RVal), xg = none ∨ sg = none ∨ zg = none →
      pySolveWarm fs fw slf xg sg zg mode lambda =
        (fs slf, PyDefaultSolution.new_from_internal (fs slf).solution)) := by
  constructor
  · intro xg sg zg
    rfl
  · intro xg sg zg h
    rcases h with h | h | h
    · subst h; rfl
    · subst h; cases xg <;> rfl
    · subst h; cases xg <;> cases sg <;> rfl

/-! Helper lemmas for the `fill_dense_triangle` write trace and the
`colcount_dense_triangle` reservations. -/

theorem fillColRows_trace (col offset r : Nat) (s : FillState × List (Nat × Nat)) :
    (fillColRows col offset r s).2 =
      s.2 ++ (List.range r).map (fun k => (col, offset + k)) := by
  induction r with
  | zero => simp [fillColRows]
  | succ r ih =>
    simp [fillColRows, fillTriuStep, ih, List.range_succ]

theorem fillCols_trace (offset k : Nat) (s : FillState × List (Nat × Nat)) :
    (fillCols offset k s).2 =
      s.2 ++ (List.range k).flatMap
        (fun j => (List.range j).map (fun r => (offset + j, offset + r))) := by
  induction k with
  | zero => simp [fillCols]
  | succ k ih =>
    rw [fillCols, fillColRows_trace, ih, List.range_succ]
    simp [List.flatMap_append]

theorem sum_range_id_mul_two (k : Nat) :
    2 * (List.range k).sum = k * (k - 1) := by
  induction k with
  | zero => simp
  | succ k ih =>
    rw [List.range_succ, List.sum_append]
    simp only [List.sum_cons, List.sum_nil, Nat.add_zero, Nat.add_sub_cancel]
    cases k with
    | zero => simp
    | succ p =>
      have ih' : 2 * (List.range (p + 1)).sum = (p + 1) * p := by
        simpa using ih
      calc 2 * ((List.range (p + 1)).sum + (p + 1))
          = 2 * (List.range (p + 1)).sum + 2 * (p + 1) := by ring
        _ = (p + 1) * p + 2 * (p + 1) := by rw [ih']
        _ = (p + 2) * (p + 1) := by ring

theorem triu_trace_countP_of_ge (offset k j : Nat) (hj : k ≤ j) :
    ((List.range k).flatMap
        (fun i => (List.range i).map (fun r => (offset + i, offset + r)))).countP
      (fun p => p.1 == offset + j) = 0 := by
  rw [List.countP_eq_zero]
  intro a ha
  rw [List.mem_flatMap] at ha
  obtain ⟨i, hi, hmem⟩ := ha
  rw [List.mem_map] at hmem
  obtain ⟨r, _, rfl⟩ := hmem
  rw [List.mem_range] at hi
  simp only [beq_iff_eq]
  omega

theorem triu_trace_countP (offset k j : Nat) (hj : j < k) :
    ((List.range k).flatMap
        (fun i => (List.range i).map (fun r => (offset + i, offset + r)))).countP
      (fun p => p.1 == offset + j) = j := by
  induction k with
  | zero => omega
  | succ k ih =>
    rw [List.range_succ, List.flatMap_append, List.countP_append]
    simp only [List.flatMap_cons, List.flatMap_nil, List.append_nil]
    by_cases hkj : j = k
    · subst hkj
      rw [triu_trace_countP_of_ge offset j j (Nat.le_refl j), List.countP_map]
      have : ((List.range j).countP ((fun p : Nat × Nat => p.1 == offset + j) ∘
          fun r => (offset + j, offset + r))) = (List.range j).length := by
        rw [List.countP_eq_length]
        intro a _
        simp
      simpa using this
    · have hjk : j < k := by omega
      rw [ih hjk, List.countP_map]
      have : ((List.range k).countP ((fun p : Nat × Nat => p.1 == offset + j) ∘
          fun r => (offset + k, offset + r))) = 0 := by
        rw [List.countP_eq_zero]
        intro a _
        simp
        omega
      rw [this]
      omega

theorem colcountDenseAux_length (initcol : Nat) (cnt : Nat → Nat) (t : Nat) (c : List Nat) :
    (colcountDenseAux initcol cnt t c).length = c.length := by
  induction t with
  | zero => rfl
  | succ t ih => rw [colcountDenseAux, addAt_length, ih]

theorem getD_colcountDenseAux_untouched (initcol : Nat) (cnt : Nat → Nat) (t : Nat)
    (c : List Nat) (p : Nat) (hp : ∀ j, j < t → initcol + j ≠ p) :
    (colcountDenseAux initcol cnt t c).getD p 0 = c.getD p 0 := by
  induction t with
  | zero => rfl
  | succ t ih =>
    rw [colcountDenseAux, getD_addAt_ne _ (hp t (Nat.lt_succ_self t)) _]
    exact ih (fun j hj => hp j (Nat.lt_succ_of_lt hj))

theorem getD_colcountDenseAux (initcol : Nat) (cnt : Nat → Nat) (t : Nat) (c : List Nat)
    (j : Nat) (hj : j < t) (hlen : initcol + t ≤ c.length) :
    (colcountDenseAux initcol cnt t c).getD (initcol + j) 0 =
      c.getD (initcol + j) 0 + cnt j := by
  induction t with
  | zero => omega
  | succ t ih =>
    by_cases h : j = t
    · subst h
      have hlt : initcol + j < (colcountDenseAux initcol cnt j c).length := by
        rw [colcountDenseAux_length]; omega
      rw [colcountDenseAux, getD_addAt_self hlt]
      rw [getD_colcountDenseAux_untouched initcol cnt j c (initcol + j)
        (fun i hi => by omega)]
    · have hjt : j < t := by omega
      rw [colcountDenseAux, getD_addAt_ne _ (by omega) _]
      exact ih hjt (by omega)

/-- Claim C10: `fill_dense_triangle` dispatches both the Triu and the Tril
branch to the same strictly-upper-triangle helper, so their effect is
identical; the helper performs exactly `blockdim * (blockdim - 1) / 2`
writes, every write has row index strictly below its column index (never a
diagonal entry), and each block column `offset + j` receives exactly one
write fewer than the `j + 1` counts that `colcount_dense_triangle(initcol,
blockdim, Triu)` reserves for its column `initcol + j`. -/
theorem fill_dense_triangle_strict_triu (st : FillState) (offset blockdim : Nat) :
    (∀ shape, fill_dense_triangle st offset blockdim shape =
      fillDenseTriangleTriu st offset blockdim) ∧
    (fillDenseTriangleTriu st offset blockdim).2.length =
      blockdim * (blockdim - 1) / 2 ∧
    (∀ p ∈ (fillDenseTriangleTriu st offset blockdim).2, p.2 < p.1) ∧
    (∀ (A : CscMatrix) (initcol j : Nat), initcol + blockdim ≤ A.colptr.length →
      j < blockdim →
      (A.colcount_dense_triangle initcol blockdim MatrixTriangle.Triu).colptr.getD
          (initcol + j) 0 =
        A.colptr.getD (initcol + j) 0 +
          ((fillDenseTriangleTriu st offset blockdim).2.countP
            (fun p => p.1 == offset + j)) + 1) := by
  have htrace : (fillDenseTriangleTriu st offset blockdim).2 =
      (List.range blockdim).flatMap
        (fun j => (List.range j).map (fun r => (offset + j, offset + r))) := by
    rw [fillDenseTriangleTriu, fillCols_trace]
    rfl
  refine ⟨?_, ?_, ?_, ?_⟩
  · intro shape
    cases shape <;> rfl
  · rw [htrace, List.length_flatMap]
    have hmap : (List.map (List.length ∘
        fun j => List.map (fun r => (offset + j, offset + r)) (List.range j))
          (List.range blockdim)) =
        List.range blockdim := by
      simp [Function.comp_def]
    rw [hmap]
    have h2 := sum_range_id_mul_two blockdim
    omega
  · intro p hp
    rw [htrace, List.mem_flatMap] at hp
    obtain ⟨i, hi, hmem⟩ := hp
    rw [List.mem_map] at hmem
    obtain ⟨r, hr, rfl⟩ := hmem
    rw [List.mem_range] at hr
    simpa using hr
  · intro A initcol j hlen hj
    rw [htrace, triu_trace_countP offset blockdim j hj]
    simp only [CscMatrix.colcount_dense_triangle]
    rw [getD_colcountDenseAux initcol (fun i => i + 1) blockdim A.colptr j hj hlen]
    omega

/-! Helper lemmas for `colcount_missing_diag` and `count_diagonal_entries`. -/

theorem colcountMissingDiagAux_length (M : CscMatrix) (initcol t : Nat) (c : List Nat) :
    (colcountMissingDiagAux M initcol t c).length = c.length := by
  induction t with
  | zero => rfl
  | succ t ih =>
    simp only [colcountMissingDiagAux]
    by_cases hm : missingDiagB M t = true <;> simp [hm, addAt_length, ih]

theorem getD_colcountMissingDiagAux (M : CscMatrix) (initcol t : Nat) (c : List Nat)
    (hlen : t + initcol ≤ c.length) (j : Nat) :
    (colcountMissingDiagAux M initcol t c).getD j 0 =
      c.getD j 0 +
        (if initcol ≤ j ∧ j - initcol < t ∧ missingDiagB M (j - initcol) = true
          then 1 else 0) := by
  induction t with
  | zero => simp [colcountMissingDiagAux]
  | succ t ih =>
    have hlen' : t + initcol ≤ c.length := by omega
    simp only [colcountMissingDiagAux]
    by_cases hm : missingDiagB M t = true
    · simp only [hm, if_true]
      by_cases hj : j = t + initcol
      · subst hj
        have hlt : t + initcol < (colcountMissingDiagAux M initcol t c).length := by
          rw [colcountMissingDiagAux_length]; omega
        rw [getD_addAt_self hlt, ih hlen']
        have e1 : ¬ (initcol ≤ t + initcol ∧ t + initcol - initcol < t ∧
            missingDiagB M (t + initcol - initcol) = true) := by
          rintro ⟨-, h2, -⟩
          omega
        have e2 : initcol ≤ t + initcol ∧ t + initcol - initcol < t + 1 ∧
            missingDiagB M (t + initcol - initcol) = true := by
          refine ⟨by omega, by omega, ?_⟩
          simpa [Nat.add_sub_cancel] using hm
        rw [if_neg e1, if_pos e2]
      · rw [getD_addAt_ne _ (fun hEq => hj hEq.symm) _, ih hlen']
        have hiff : (initcol ≤ j ∧ j - initcol < t ∧ missingDiagB M (j - initcol) = true) ↔
            (initcol ≤ j ∧ j - initcol < t + 1 ∧ missingDiagB M (j - initcol) = true) := by
          constructor
          · rintro ⟨a, b, cc⟩
            exact ⟨a, by omega, cc⟩
          · rintro ⟨a, b, cc⟩
            refine ⟨a, ?_, cc⟩
            omega
        rw [if_congr hiff rfl rfl]
    · have hstep : (if missingDiagB M t = true
          then addAt (colcountMissingDiagAux M initcol t c) (t + initcol) 1
          else colcountMissingDiagAux M initcol t c) =
          colcountMissingDiagAux M initcol t c := if_neg hm
      rw [hstep, ih hlen']
      have hiff : (initcol ≤ j ∧ j - initcol < t ∧ missingDiagB M (j - initcol) = true) ↔
          (initcol ≤ j ∧ j - initcol < t + 1 ∧ missingDiagB M (j - initcol) = true) := by
        constructor
        · rintro ⟨a, b, cc⟩
          exact ⟨a, by omega, cc⟩
        · rintro ⟨a, b, cc⟩
          refine ⟨a, ?_, cc⟩
          by_cases he : j - initcol = t
          · rw [he] at cc
            exact absurd cc hm
          · omega
      rw [if_congr hiff rfl rfl]

theorem countDiagAux_eq_card (M : CscMatrix) (t : Nat) :
    countDiagAux M t = ((Finset.range t).filter (fun i => diagB M i = true)).card := by
  induction t with
  | zero => simp [countDiagAux]
  | succ t ih =>
    rw [countDiagAux, ih, Finset.range_succ, Finset.filter_insert]
    by_cases h : diagB M t = true <;>
      simp [h, Finset.card_insert_of_not_mem]

theorem beq_nat_comm (a b : Nat) : (a == b) = (b == a) := by
  by_cases h : a = b
  · subst h; rfl
  · have h' : ¬ b = a := fun e => h e.symm
    simp [h, h']

theorem missingDiagB_eq_not_diagB (M : CscMatrix) (i : Nat) :
    missingDiagB M i = !(diagB M i) := by
  rw [missingDiagB, diagB]
  generalize M.colptr.getD i 0 = a
  generalize M.colptr.getD (i + 1) 0 = b
  generalize M.rowval.getD (b - 1) 0 = r
  rw [Bool.not_and]
  show ((a == b) || !(r == i)) = (!(b != a) || !(r == i))
  rw [show ((b != a) : Bool) = !(b == a) from rfl, Bool.not_not, beq_nat_comm a b]

/-- Claim C9: for a square matrix M satisfying the asserts of
`colcount_missing_diag`, each column satisfies exactly one of the two
complementary tests used by `colcount_missing_diag` and
`count_diagonal_entries`, and the number of destination columns incremented
by `colcount_missing_diag(M, initcol)` plus `count_diagonal_entries()` of M
equals `M.n`. -/
theorem colcount_missing_diag_partition (A M : CscMatrix) (initcol : Nat)
    (hsquare : M.m = M.n) (hMlen : M.colptr.length = M.n + 1)
    (hAlen : M.n + initcol ≤ A.colptr.length) :
    (∀ i, missingDiagB M i = !(diagB M i)) ∧
    (incrementedColumns A M initcol).card + M.count_diagonal_entries = M.n := by
  refine ⟨missingDiagB_eq_not_diagB M, ?_⟩
  have hpoint : ∀ j, (A.colcount_missing_diag M initcol).colptr.getD j 0 =
      A.colptr.getD j 0 +
        (if initcol ≤ j ∧ j - initcol < M.n ∧ missingDiagB M (j - initcol) = true
          then 1 else 0) := by
    intro j
    exact getD_colcountMissingDiagAux M initcol M.n A.colptr hAlen j
  have hcard : ((Finset.range M.n).filter (fun i => missingDiagB M i = true)).card =
      (incrementedColumns A M initcol).card := by
    apply Finset.card_bij (fun i _ => i + initcol)
    · intro i hi
      rw [Finset.mem_filter, Finset.mem_range] at hi
      rw [incrementedColumns, Finset.mem_filter, Finset.mem_range]
      constructor
      · omega
      · rw [hpoint (i + initcol)]
        have : initcol ≤ i + initcol ∧ i + initcol - initcol < M.n ∧
            missingDiagB M (i + initcol - initcol) = true := by
          refine ⟨by omega, by omega, ?_⟩
          simpa [Nat.add_sub_cancel] using hi.2
        rw [if_pos this]
        omega
    · intro a ha b hb hab
      omega
    · intro j hj
      rw [incrementedColumns, Finset.mem_filter, Finset.mem_range] at hj
      have hP : initcol ≤ j ∧ j - initcol < M.n ∧ missingDiagB M (j - initcol) = true := by
        by_contra hnot
        apply hj.2
        rw [hpoint j, if_neg hnot]
        omega
      refine ⟨j - initcol, ?_, by omega⟩
      rw [Finset.mem_filter, Finset.mem_range]
      exact ⟨hP.2.1, hP.2.2⟩
  have hsplit := Finset.filter_card_add_filter_neg_card_eq_card
    (s := Finset.range M.n) (p := fun i => diagB M i = true)
  have hfilter : ((Finset.range M.n).filter (fun i => ¬ diagB M i = true)) =
      ((Finset.range M.n).filter (fun i => missingDiagB M i = true)) := by
    apply Finset.filter_congr
    intro i _
    rw [missingDiagB_eq_not_diagB M i]
    simp
  rw [hfilter] at hsplit
  rw [CscMatrix.count_diagonal_entries, countDiagAux_eq_card, ← hcard]
  simp only [Finset.card_range] at hsplit
  omega

/-- Witness for C9: a concrete 2×2 matrix with both diagonal entries
present, a concrete destination and `initcol = 1`; all three hypotheses are
discharged by computation. -/
theorem colcount_missing_diag_partition_witness :
    (incrementedColumns ⟨3, 3, [0, 0, 0, 0], [], []⟩
        ⟨2, 2, [0, 1, 2], [0, 1], [RVal.num 1, RVal.num 1]⟩ 1).card +
      (⟨2, 2, [0, 1, 2], [0, 1], [RVal.num 1, RVal.num 1]⟩ : CscMatrix).count_diagonal_entries =
      (⟨2, 2, [0, 1, 2], [0, 1], [RVal.num 1, RVal.num 1]⟩ : CscMatrix).n :=
  (colcount_missing_diag_partition ⟨3, 3, [0, 0, 0, 0], [], []⟩
      ⟨2, 2, [0, 1, 2], [0, 1], [RVal.num 1, RVal.num 1]⟩ 1 rfl rfl (by decide)).2

end Clarabel
